import Mathlib

/-!
# Verification of step-16 (multigrid-prepared Laplace solver)

A shallow embedding of `deal.II/examples/step-16/step-16.cc` over exact
rational arithmetic.  Matrices and vectors over the global degree-of-freedom
index space `Fin n` are total functions into `ℚ`; the external collaborators
(mesh, DoF index provider, quadrature/shape evaluator) are abstracted into
per-cell data records exactly as the assembly loops of the source consume
them.  Library routines of deal.II that are not part of the staged source
(`MatrixTools::apply_boundary_values`, `SolverCG`/`SolverControl`,
`PreconditionSSOR`, `Triangulation` refinement) are modelled from the
specification's words; each such definition is marked in its doc comment.
-/

namespace Step16

/-- A dense view of a vector over the global DoF index space. -/
def Vec (n : Nat) : Type := Fin n → ℚ

/-- A dense view of the (sparse) matrix over the global DoF index space:
the value accumulated at entry (row, col). -/
def Mat (n : Nat) : Type := Fin n → Fin n → ℚ

/-- The zero matrix: state of `system_matrix` right after
`system_matrix.reinit (sparsity_pattern)` in `setup_system` (line 141). -/
def zeroMat (n : Nat) : Mat n := fun _ _ => 0

/-- The zero vector: state of `solution` / `system_rhs` right after their
`reinit` calls in `setup_system` (lines 143-144). -/
def zeroVec (n : Nat) : Vec n := fun _ => 0

/-- What `assemble_system` reads from one active cell, as supplied by the
external collaborators: `dofs` is `cell->get_dof_indices` (line 253), `grad`
is `fe_values.shape_grad (i, q)` as a vector of `dim` components, `val` is
`fe_values.shape_value (i, q)`, and `jxw` is `fe_values.JxW (q)` (quadrature
weight times Jacobian determinant). -/
structure Cell (n dim nd nq : Nat) where
  dofs : Fin nd → Fin n
  grad : Fin nd → Fin nq → Fin dim → ℚ
  val : Fin nd → Fin nq → ℚ
  jxw : Fin nq → ℚ

/-- The local stiffness entry accumulated by the quadrature loop of
`assemble_system` (lines 237-243): `cell_matrix(i,j) += shape_grad(i,q) *
shape_grad(j,q) * JxW(q)`, the dot product of gradients written out. -/
def cellMatrix {n dim nd nq : Nat} (c : Cell n dim nd nq) (i j : Fin nd) : ℚ :=
  ∑ q, (∑ d, c.grad i q d * c.grad j q d) * c.jxw q

/-- The local load entry accumulated by the quadrature loop of
`assemble_system` (lines 248-249): `cell_rhs(i) += shape_value(i,q) * 1.0 *
JxW(q)` — the constant source term 1.0 kept explicit. -/
def cellRhs {n dim nd nq : Nat} (c : Cell n dim nd nq) (i : Fin nd) : ℚ :=
  ∑ q, c.val i q * 1 * c.jxw q

/-- `system_matrix.add (r, c, v)`: entry (r,c) is incremented by v, all other
entries are untouched (lines 257-259). -/
def matAdd {n : Nat} (A : Mat n) (r c : Fin n) (v : ℚ) : Mat n :=
  fun g h => if g = r ∧ h = c then A g h + v else A g h

/-- `system_rhs(r) += v` (line 261). -/
def vecAdd {n : Nat} (b : Vec n) (r : Fin n) (v : ℚ) : Vec n :=
  fun g => if g = r then b g + v else b g

/-- The local-to-global scatter of one cell's stiffness block
(lines 254-259): the double loop over local indices (i, j) adding
`cell_matrix(i,j)` at global position `(dofs i, dofs j)`. -/
def scatterCell {n dim nd nq : Nat} (c : Cell n dim nd nq) (A : Mat n) : Mat n :=
  (List.finRange nd).foldl
    (fun B i =>
      (List.finRange nd).foldl
        (fun B2 j => matAdd B2 (c.dofs i) (c.dofs j) (cellMatrix c i j)) B)
    A

/-- The local-to-global scatter of one cell's load block (line 261). -/
def scatterRhs {n dim nd nq : Nat} (c : Cell n dim nd nq) (b : Vec n) : Vec n :=
  (List.finRange nd).foldl (fun b2 i => vecAdd b2 (c.dofs i) (cellRhs c i)) b

/-- The active-cell loop of `assemble_system` (lines 204-263): each cell's
local matrix and rhs are computed fresh and scatter-added into the global
matrix and rhs. -/
def assembleCells {n dim nd nq : Nat} (cs : List (Cell n dim nd nq))
    (A : Mat n) (b : Vec n) : Mat n × Vec n :=
  cs.foldl (fun p c => (scatterCell c p.1, scatterRhs c p.2)) (A, b)

/-- The global linear system owned by `LaplaceProblem`: `system_matrix`,
`solution`, `system_rhs` (lines 99, 109-110). -/
structure GlobalSystem (n : Nat) where
  A : Mat n
  solution : Vec n
  rhs : Vec n

/-- The freshly reinitialized global system produced by `setup_system`
(lines 141-144): everything zero at the current size. -/
def setupGlobal (n : Nat) {m : Nat} (_old : GlobalSystem m) : GlobalSystem n :=
  { A := zeroMat n, solution := zeroVec n, rhs := zeroVec n }

/-- Modelled from the spec: `MatrixTools::apply_boundary_values`
(numerics/matrices.h, not under the staged source) acting on the matrix.
Per section 4.3: for each boundary DoF, zero its matrix row and column
except the diagonal, which is set to 1; all other entries are untouched. -/
def applyBoundaryMat {n : Nat} (B : Finset (Fin n)) (A : Mat n) : Mat n :=
  fun i j =>
    if i ∈ B then (if j = i then 1 else 0)
    else if j ∈ B then 0 else A i j

/-- Modelled from the spec: `MatrixTools::apply_boundary_values` acting on
the right-hand side.  Per section 4.3: the rhs entry of a boundary DoF is
set to the prescribed value; every other rhs entry is adjusted to preserve
the linear relationship for the non-eliminated unknowns (the eliminated
column times the prescribed value is subtracted). -/
def applyBoundaryRhs {n : Nat} (B : Finset (Fin n)) (g : Fin n → ℚ)
    (A : Mat n) (b : Vec n) : Vec n :=
  fun i => if i ∈ B then g i else b i - ∑ j ∈ B, A i j * g j

/-- Modelled from the spec: `MatrixTools::apply_boundary_values` acting on
the solution vector: boundary DoFs receive their prescribed values, the
rest is untouched. -/
def applyBoundarySol {n : Nat} (B : Finset (Fin n)) (g : Fin n → ℚ)
    (x : Vec n) : Vec n :=
  fun i => if i ∈ B then g i else x i

/-- Modelled from the spec: `MatrixTools::apply_boundary_values` on the
whole system triple (matrix, solution, rhs), as called at lines 271-274 and
360-363.  `B` is the set of boundary DoFs delivered by
`VectorTools::interpolate_boundary_values`, `g` their prescribed values. -/
def applyBoundaryValues {n : Nat} (B : Finset (Fin n)) (g : Fin n → ℚ)
    (s : GlobalSystem n) : GlobalSystem n :=
  { A := applyBoundaryMat B s.A,
    solution := applyBoundarySol B g s.solution,
    rhs := applyBoundaryRhs B g s.A s.rhs }

/-- `LaplaceProblem::assemble_system` (lines 184-275): scatter-add every
active cell's local contributions into the global matrix and rhs held in
the incoming state, then apply the zero Dirichlet boundary values
(`ZeroFunction`, lines 266-274) to the resulting system. -/
def assemble_system {n dim nd nq : Nat} (cs : List (Cell n dim nd nq))
    (B : Finset (Fin n)) (s : GlobalSystem n) : GlobalSystem n :=
  let p := assembleCells cs s.A s.rhs
  applyBoundaryValues B (fun _ => 0) { A := p.1, solution := s.solution, rhs := p.2 }

/-- What `assemble_multigrid` reads from one cell of the full hierarchy
(the loop at line 306 runs over all cells of all levels, not only active
ones): `level` is `cell->level()` (line 312), `dofs` is
`cell->get_mg_dof_indices` (line 341), the indices of the cell's own level's
numbering; `grad` and `jxw` as in `Cell`. -/
structure LevelCell (dim nd nq : Nat) where
  level : Nat
  dofs : Fin nd → Nat
  grad : Fin nd → Fin nq → Fin dim → ℚ
  jxw : Fin nq → ℚ

/-- The local stiffness entry of the multigrid integration loop
(lines 322-328), identical in form to `cellMatrix`. -/
def lcellMatrix {dim nd nq : Nat} (c : LevelCell dim nd nq) (i j : Fin nd) : ℚ :=
  ∑ q, (∑ d, c.grad i q d * c.grad j q d) * c.jxw q

/-- The entries of the `MGLevelObject` of level matrices `mg_matrices`
(line 107): level, then (row, col) in that level's own numbering. -/
def MgMats : Type := Nat → Nat → Nat → ℚ

/-- `mg_matrices[lvl].add (r, c, v)` (lines 348-350). -/
def mgAdd (M : MgMats) (lvl r c : Nat) (v : ℚ) : MgMats :=
  fun L i j => if L = lvl ∧ i = r ∧ j = c then M L i j + v else M L i j

/-- The level scatter of one cell (lines 342-351): the cell's local
stiffness block is added into the matrix of the cell's own level at its
level-local DoF indices. -/
def scatterLevelCell {dim nd nq : Nat} (M : MgMats) (c : LevelCell dim nd nq) : MgMats :=
  (List.finRange nd).foldl
    (fun M2 i =>
      (List.finRange nd).foldl
        (fun M3 j => mgAdd M3 c.level (c.dofs i) (c.dofs j) (lcellMatrix c i j)) M2)
    M

/-- The complete mutable state of `LaplaceProblem` touched by the two
assembly routines: the global system triple and the level matrix array. -/
structure FullState (n : Nat) where
  sys : GlobalSystem n
  mg : MgMats

/-- `LaplaceProblem::assemble_multigrid` (lines 289-364): every cell of the
hierarchy scatter-adds its stiffness block into its own level's matrix
(lines 306-352), and then — lines 354-363 — the zero boundary values are
applied to the GLOBAL system matrix, solution and rhs, exactly as written
in the source (`MatrixTools::apply_boundary_values (boundary_values,
system_matrix, solution, system_rhs)`). -/
def assemble_multigrid {n dim nd nq : Nat} (lcs : List (LevelCell dim nd nq))
    (B : Finset (Fin n)) (st : FullState n) : FullState n :=
  { mg := lcs.foldl scatterLevelCell st.mg,
    sys := applyBoundaryValues B (fun _ => 0) st.sys }

/-- The (rows, cols) dimensions of one sparse matrix. -/
structure MatrixShape where
  rows : Nat
  cols : Nat
deriving DecidableEq, Repr

/-- The per-level matrix setup of `setup_system` (lines 153-172): for every
level in `[0, nlevels-1]` the level sparsity pattern is reinitialized to
`n_dofs(level) x n_dofs(level)` and the level matrix to that pattern.
`ndofsL` abstracts `mg_dof_handler.n_dofs(level)`, the external DoF index
provider's per-level DoF count. -/
def setupLevelShapes (nlevels : Nat) (ndofsL : Nat → Nat) : List MatrixShape :=
  (List.range nlevels).map fun l => { rows := ndofsL l, cols := ndofsL l }

/-- Dot product of two vectors. -/
def dot {n : Nat} (x y : Vec n) : ℚ := ∑ i, x i * y i

/-- Matrix-vector product. -/
def matVec {n : Nat} (A : Mat n) (x : Vec n) : Vec n := fun i => ∑ j, A i j * x j

/-- Squared Euclidean norm.  Over exact rationals the solver's residual
test `norm r < tol` is phrased equivalently as `normSq r < tol * tol`. -/
def normSq {n : Nat} (x : Vec n) : ℚ := dot x x

/-- The residual `b - A x` of the global system at iterate `x`. -/
def resid {n : Nat} (A : Mat n) (b x : Vec n) : Vec n :=
  fun i => b i - matVec A x i

/-- Modelled from the spec: the forward Gauss-Seidel-type sweep of the SSOR
preconditioner of `PreconditionSSOR` (lac/precondition.h, not under the
staged source): solve `(D + w L) y = r` by forward substitution, rows in
increasing index order. -/
def ssorForward {n : Nat} (A : Mat n) (w : ℚ) (r : Vec n) : Vec n :=
  (List.finRange n).foldl
    (fun y i =>
      Function.update y i
        ((r i - w * ∑ j : Fin n, if (j : Nat) < (i : Nat) then A i j * y j else 0) / A i i))
    (zeroVec n)

/-- Modelled from the spec: the backward sweep of the SSOR preconditioner:
solve `(D + w U) z = v` by backward substitution, rows in decreasing index
order. -/
def ssorBackward {n : Nat} (A : Mat n) (w : ℚ) (v : Vec n) : Vec n :=
  (List.finRange n).reverse.foldl
    (fun z i =>
      Function.update z i
        ((v i - w * ∑ j : Fin n, if (i : Nat) < (j : Nat) then A i j * z j else 0) / A i i))
    (zeroVec n)

/-- Modelled from the spec: one symmetric successive-over-relaxation step
against the matrix `A` itself with relaxation factor `w`
(`PreconditionSSOR::initialize (system_matrix, 1.2)`, lines 397-398):
`z = w (2 - w) (D + w U)⁻¹ D (D + w L)⁻¹ r`. -/
def precondSSOR {n : Nat} (A : Mat n) (w : ℚ) (r : Vec n) : Vec n :=
  let y := ssorForward A w r
  let z := ssorBackward A w (fun i => A i i * y i)
  fun i => w * (2 - w) * z i

/-- The state of one preconditioned conjugate-gradient iteration: current
iterate, residual, search direction, and the iteration counter reported by
`solver_control.last_step()`. -/
structure CGState (n : Nat) where
  x : Vec n
  r : Vec n
  p : Vec n
  iter : Nat

/-- Modelled from the spec: the step length of one preconditioned CG
iteration. -/
def cgAlpha {n : Nat} (A : Mat n) (M : Vec n → Vec n) (s : CGState n) : ℚ :=
  dot s.r (M s.r) / dot s.p (matVec A s.p)

/-- Modelled from the spec: the residual after one preconditioned CG
iteration. -/
def cgNewResid {n : Nat} (A : Mat n) (M : Vec n → Vec n) (s : CGState n) : Vec n :=
  fun i => s.r i - cgAlpha A M s * matVec A s.p i

/-- Modelled from the spec: the direction-update coefficient of one
preconditioned CG iteration. -/
def cgBeta {n : Nat} (A : Mat n) (M : Vec n → Vec n) (s : CGState n) : ℚ :=
  dot (cgNewResid A M s) (M (cgNewResid A M s)) / dot s.r (M s.r)

/-- Modelled from the spec: one iteration of the preconditioned
conjugate-gradient method of `SolverCG` (lac/solver_cg.h, not under the
staged source), with preconditioner application `M`. -/
def cgStep {n : Nat} (A : Mat n) (M : Vec n → Vec n) (s : CGState n) : CGState n :=
  { x := fun i => s.x i + cgAlpha A M s * s.p i,
    r := cgNewResid A M s,
    p := fun i => M (cgNewResid A M s) i + cgBeta A M s * s.p i,
    iter := s.iter + 1 }

/-- The solver-divergence condition of section 7: the iteration cap was
exhausted without reaching the tolerance. -/
inductive SolverDivergence where
  | noConvergence
deriving DecidableEq

/-- Modelled from the spec: the `SolverControl` loop of `SolverCG`: before
each iteration the residual is tested against the absolute tolerance
(squared, see `normSq`); on success the iterate and the used iteration
count are returned, and when the remaining iteration budget is exhausted
the divergence condition is surfaced to the caller as an error. -/
def cgLoop {n : Nat} (A : Mat n) (M : Vec n → Vec n) (tolSq : ℚ) :
    Nat → CGState n → Except SolverDivergence (Vec n × Nat)
  | fuel, s =>
    if normSq s.r < tolSq then Except.ok (s.x, s.iter)
    else
      match fuel with
      | 0 => Except.error SolverDivergence.noConvergence
      | f + 1 => cgLoop A M tolSq f (cgStep A M s)

/-- The initial CG state at start vector `x0`: residual `b - A x0`, first
search direction the preconditioned residual, iteration counter 0. -/
def cgInit {n : Nat} (A : Mat n) (M : Vec n → Vec n) (b x0 : Vec n) : CGState n :=
  { x := x0, r := resid A b x0, p := M (resid A b x0), iter := 0 }

/-- Modelled from the spec: `SolverCG::solve` with an iteration cap and an
absolute tolerance (compared squared against the squared residual norm). -/
def cgSolve {n : Nat} (maxIter : Nat) (tolSq : ℚ) (A : Mat n)
    (M : Vec n → Vec n) (b x0 : Vec n) : Except SolverDivergence (Vec n × Nat) :=
  cgLoop A M tolSq maxIter (cgInit A M b x0)

/-- The iteration cap of `SolverControl (1000, 1e-12)` (line 377). -/
def cgMaxIter : Nat := 1000

/-- The absolute residual tolerance of `SolverControl (1000, 1e-12)`
(line 377), as an exact rational. -/
def cgTol : ℚ := 1 / 10 ^ 12

/-- The SSOR relaxation factor of `preconditioner.initialize
(system_matrix, 1.2)` (line 398), as an exact rational. -/
def ssorRelax : ℚ := 12 / 10

/-- `LaplaceProblem::solve` (lines 375-425): preconditioned CG on the
global matrix with the SSOR preconditioner built from that same matrix
with relaxation factor 1.2, cap 1000 iterations, absolute tolerance
1e-12. -/
def lpSolve {n : Nat} (A : Mat n) (b x0 : Vec n) :
    Except SolverDivergence (Vec n × Nat) :=
  cgSolve cgMaxIter (cgTol * cgTol) A (precondSSOR A ssorRelax) b x0

/-- The member functions `LaplaceProblem::run` can invoke in a cycle body
(lines 504-507): setup, the two assemblers, the solver and the output
writer. -/
inductive CycleCall where
  | setupCall
  | assembleSystemCall
  | assembleMultigridCall
  | solveCall
  | outputCall
deriving DecidableEq, Repr

/-- The calls one cycle body of `LaplaceProblem::run` actually makes, in
order (lines 504-507): `setup_system (); assemble_system (); solve ();
output_results (cycle);`. -/
def runCycleCalls : List CycleCall :=
  [CycleCall.setupCall, CycleCall.assembleSystemCall,
   CycleCall.solveCall, CycleCall.outputCall]

/-- The per-cycle problem data delivered by the external collaborators
(mesh, DoF index provider, quadrature evaluator): the active cells, the
cells of the whole hierarchy with level indices, and the boundary DoF
set. -/
structure CycleConfig (n dim nd nq : Nat) where
  cells : List (Cell n dim nd nq)
  lcells : List (LevelCell dim nd nq)
  bdry : Finset (Fin n)

/-- The state of `LaplaceProblem` after `setup_system`: every matrix and
vector freshly reinitialized to zero at the current sizes (lines 127-173 —
`reinit` of `system_matrix`, `solution`, `system_rhs` and of every
`mg_matrices[level]`). -/
def setupFullState (n : Nat) : FullState n :=
  { sys := { A := zeroMat n, solution := zeroVec n, rhs := zeroVec n },
    mg := fun _ _ _ => 0 }

/-- The state effect of each call a cycle body can make.  `solveCall`
overwrites the solution with the CG result when the solver converges
(`cg.solve (system_matrix, solution, system_rhs, preconditioner)`,
lines 419-420); on divergence the exception aborts the cycle and the state
is not used further.  `outputCall` only writes a file and leaves the state
unchanged. -/
def callEffect {n dim nd nq : Nat} (cfg : CycleConfig n dim nd nq) :
    CycleCall → FullState n → FullState n
  | CycleCall.setupCall, _ => setupFullState n
  | CycleCall.assembleSystemCall, st =>
      { st with sys := assemble_system cfg.cells cfg.bdry st.sys }
  | CycleCall.assembleMultigridCall, st => assemble_multigrid cfg.lcells cfg.bdry st
  | CycleCall.solveCall, st =>
      { st with sys :=
          { st.sys with solution :=
              match lpSolve st.sys.A st.sys.rhs st.sys.solution with
              | Except.ok p => p.1
              | Except.error _ => st.sys.solution } }
  | CycleCall.outputCall, st => st

/-- One full cycle body of `LaplaceProblem::run` acting on the program
state: the composition of the calls of `runCycleCalls` in order. -/
def runCycleState {n dim nd nq : Nat} (cfg : CycleConfig n dim nd nq)
    (st : FullState n) : FullState n :=
  runCycleCalls.foldl (fun s c => callEffect cfg c s) st

/-- The number of active cells of the single base cell generated by
`GridGenerator::hyper_cube (triangulation)` on cycle 0 (line 484). -/
def hyperCubeActiveCells : Nat := 1

/-- Modelled from the spec: `Triangulation<2>::refine_global (1)`
(grid/tria.h, not under the staged source) splits every active
quadrilateral cell into its 4 children, so the active-cell count is
multiplied by 4 (section 8: quadrilateral subdivision, 4^c in 2D). -/
def refineGlobalActive (a : Nat) : Nat := 4 * a

/-- The active-cell count at the start of cycle `c`'s reporting, following
the control flow of `run` (lines 477-491): cycle 0 generates the single
base hypercube cell, every later cycle refines the mesh globally once. -/
def activeCellsAtCycle : Nat → Nat
  | 0 => hyperCubeActiveCells
  | c + 1 => refineGlobalActive (activeCellsAtCycle c)

/-- The number of refinement cycles of the loop `for (cycle = 0; cycle < 6;
++cycle)` (line 477). -/
def runCycleCount : Nat := 6

/-- The per-cycle active-cell counts reported by the 6-cycle loop of
`run`. -/
def runActiveCells : List Nat :=
  (List.range runCycleCount).map activeCellsAtCycle

/-- The value `main` returns on normal completion (line 548). -/
def mainExitCode : Nat := 0

/-! ## Closed forms of the scatter loops -/

/-- A fold whose every step adds a state-independent amount to an observed
quantity adds the sum of the amounts. -/
theorem foldl_eval_add {α σ : Type _} (ev : σ → ℚ) (step : σ → α → σ) (d : α → ℚ)
    (hstep : ∀ s k, ev (step s k) = ev s + d k) (l : List α) (s : σ) :
    ev (l.foldl step s) = ev s + (l.map d).sum := by
  induction l generalizing s with
  | nil => simp
  | cons x xs ih => simp [List.foldl_cons, ih, hstep, add_assoc]

/-- Entry view of one `system_matrix.add`. -/
theorem matAdd_apply {n : Nat} (A : Mat n) (r c : Fin n) (v : ℚ) (g h : Fin n) :
    matAdd A r c v g h = A g h + if g = r ∧ h = c then v else 0 := by
  unfold matAdd
  by_cases h1 : g = r ∧ h = c <;> simp [h1]

/-- Entry view of one `system_rhs(r) += v`. -/
theorem vecAdd_apply {n : Nat} (b : Vec n) (r : Fin n) (v : ℚ) (g : Fin n) :
    vecAdd b r v g = b g + if g = r then v else 0 := by
  unfold vecAdd
  by_cases h1 : g = r <;> simp [h1]

/-- The matrix scatter of one cell, summed out: entry (g, h) receives the
local stiffness of every local index pair mapped onto (g, h) by the cell's
DoF index list. -/
theorem scatterCell_apply {n dim nd nq : Nat} (c : Cell n dim nd nq)
    (A : Mat n) (g h : Fin n) :
    scatterCell c A g h
      = A g h + ∑ i, ∑ j, if g = c.dofs i ∧ h = c.dofs j then cellMatrix c i j else 0 := by
  have inner : ∀ (i : Fin nd) (B : Mat n),
      ((List.finRange nd).foldl
        (fun B2 j => matAdd B2 (c.dofs i) (c.dofs j) (cellMatrix c i j)) B) g h
        = B g h + ∑ j, if g = c.dofs i ∧ h = c.dofs j then cellMatrix c i j else 0 := by
    intro i B
    rw [foldl_eval_add (fun B2 => B2 g h) _
      (fun j => if g = c.dofs i ∧ h = c.dofs j then cellMatrix c i j else 0)
      (fun s j => matAdd_apply s (c.dofs i) (c.dofs j) (cellMatrix c i j) g h)
      (List.finRange nd) B, Fin.sum_univ_def]
  unfold scatterCell
  rw [foldl_eval_add (fun B => B g h) _
    (fun i => ∑ j, if g = c.dofs i ∧ h = c.dofs j then cellMatrix c i j else 0)
    (fun s i => inner i s) (List.finRange nd) A, Fin.sum_univ_def]

/-- The rhs scatter of one cell, summed out. -/
theorem scatterRhs_apply {n dim nd nq : Nat} (c : Cell n dim nd nq)
    (b : Vec n) (g : Fin n) :
    scatterRhs c b g = b g + ∑ i, if g = c.dofs i then cellRhs c i else 0 := by
  unfold scatterRhs
  rw [foldl_eval_add (fun b2 => b2 g) _
    (fun i => if g = c.dofs i then cellRhs c i else 0)
    (fun s i => vecAdd_apply s (c.dofs i) (cellRhs c i) g)
    (List.finRange nd) b, Fin.sum_univ_def]

/-- The active-cell assembly loop, matrix part, summed out over the cell
list. -/
theorem assembleCells_fst_apply {n dim nd nq : Nat} (cs : List (Cell n dim nd nq))
    (A : Mat n) (b : Vec n) (g h : Fin n) :
    (assembleCells cs A b).1 g h
      = A g h + (cs.map fun c =>
          ∑ i, ∑ j, if g = c.dofs i ∧ h = c.dofs j then cellMatrix c i j else 0).sum := by
  unfold assembleCells
  exact foldl_eval_add (fun p => p.1 g h)
    (fun p c => (scatterCell c p.1, scatterRhs c p.2))
    (fun c => ∑ i, ∑ j, if g = c.dofs i ∧ h = c.dofs j then cellMatrix c i j else 0)
    (fun p c => scatterCell_apply c p.1 g h) cs (A, b)

/-- The active-cell assembly loop, rhs part, summed out over the cell
list. -/
theorem assembleCells_snd_apply {n dim nd nq : Nat} (cs : List (Cell n dim nd nq))
    (A : Mat n) (b : Vec n) (g : Fin n) :
    (assembleCells cs A b).2 g
      = b g + (cs.map fun c => ∑ i, if g = c.dofs i then cellRhs c i else 0).sum := by
  unfold assembleCells
  exact foldl_eval_add (fun p => p.2 g)
    (fun p c => (scatterCell c p.1, scatterRhs c p.2))
    (fun c => ∑ i, if g = c.dofs i then cellRhs c i else 0)
    (fun p c => scatterRhs_apply c p.2 g) cs (A, b)

/-- Entry view of one `mg_matrices[lvl].add`. -/
theorem mgAdd_apply (M : MgMats) (lvl r c : Nat) (v : ℚ) (L i j : Nat) :
    mgAdd M lvl r c v L i j = M L i j + if L = lvl ∧ i = r ∧ j = c then v else 0 := by
  unfold mgAdd
  by_cases h1 : L = lvl ∧ i = r ∧ j = c <;> simp [h1]

/-- The level scatter of one hierarchy cell, summed out: only the matrix of
the cell's own level receives contributions, at the cell's level-local DoF
indices. -/
theorem scatterLevelCell_apply {dim nd nq : Nat} (M : MgMats)
    (c : LevelCell dim nd nq) (L i j : Nat) :
    scatterLevelCell M c L i j
      = M L i j + ∑ a, ∑ b2, if L = c.level ∧ i = c.dofs a ∧ j = c.dofs b2
          then lcellMatrix c a b2 else 0 := by
  have inner : ∀ (a : Fin nd) (M2 : MgMats),
      ((List.finRange nd).foldl
        (fun M3 b2 => mgAdd M3 c.level (c.dofs a) (c.dofs b2) (lcellMatrix c a b2)) M2) L i j
        = M2 L i j + ∑ b2, if L = c.level ∧ i = c.dofs a ∧ j = c.dofs b2
            then lcellMatrix c a b2 else 0 := by
    intro a M2
    rw [foldl_eval_add (fun M3 => M3 L i j) _
      (fun b2 => if L = c.level ∧ i = c.dofs a ∧ j = c.dofs b2 then lcellMatrix c a b2 else 0)
      (fun s b2 => mgAdd_apply s c.level (c.dofs a) (c.dofs b2) (lcellMatrix c a b2) L i j)
      (List.finRange nd) M2, Fin.sum_univ_def]
  unfold scatterLevelCell
  rw [foldl_eval_add (fun M2 => M2 L i j) _
    (fun a => ∑ b2, if L = c.level ∧ i = c.dofs a ∧ j = c.dofs b2
        then lcellMatrix c a b2 else 0)
    (fun s a => inner a s) (List.finRange nd) M, Fin.sum_univ_def]

/-- The whole-hierarchy level assembly loop, summed out over the cell
list. -/
theorem assembleLevels_apply {n dim nd nq : Nat} (lcs : List (LevelCell dim nd nq))
    (B : Finset (Fin n)) (st : FullState n) (L i j : Nat) :
    (assemble_multigrid lcs B st).mg L i j
      = st.mg L i j + (lcs.map fun c =>
          ∑ a, ∑ b2, if L = c.level ∧ i = c.dofs a ∧ j = c.dofs b2
            then lcellMatrix c a b2 else 0).sum := by
  unfold assemble_multigrid
  exact foldl_eval_add (fun M => M L i j) _
    (fun c => ∑ a, ∑ b2, if L = c.level ∧ i = c.dofs a ∧ j = c.dofs b2
        then lcellMatrix c a b2 else 0)
    (fun M c => scatterLevelCell_apply M c L i j) lcs st.mg

/-! ## Claim theorems -/

/-- C2: for every active cell and every pair of local basis indices (i, j),
the Global Assembler adds to global entry A[global_i, global_j] the
quadrature sum of grad(phi_i)(q) . grad(phi_j)(q) * w(q), and to
b[global_i] the quadrature sum of phi_i(q) * f * w(q) with constant source
f = 1.0, scattered through the cell's global DoF index list. -/
theorem global_assembler_adds_quadrature_sums {n dim nd nq : Nat}
    (cs : List (Cell n dim nd nq)) (A0 : Mat n) (b0 : Vec n) (g h : Fin n) :
    (assembleCells cs A0 b0).1 g h
      = A0 g h + (cs.map fun c =>
          ∑ i, ∑ j, if g = c.dofs i ∧ h = c.dofs j
            then ∑ q, (∑ d, c.grad i q d * c.grad j q d) * c.jxw q else 0).sum
    ∧ (assembleCells cs A0 b0).2 g
      = b0 g + (cs.map fun c =>
          ∑ i, if g = c.dofs i then ∑ q, c.val i q * 1 * c.jxw q else 0).sum := by
  constructor
  · rw [assembleCells_fst_apply]; rfl
  · rw [assembleCells_snd_apply]; rfl

/-- The local stiffness block is symmetric: the integrand is a dot product
of two gradients, unchanged under swapping the two basis indices. -/
theorem cellMatrix_symm {n dim nd nq : Nat} (c : Cell n dim nd nq) (i j : Fin nd) :
    cellMatrix c i j = cellMatrix c j i := by
  unfold cellMatrix
  refine Finset.sum_congr rfl fun q _ => ?_
  have hd : (∑ d, c.grad i q d * c.grad j q d) = ∑ d, c.grad j q d * c.grad i q d :=
    Finset.sum_congr rfl fun d _ => mul_comm _ _
  rw [hd]

/-- C5: for every cycle, the global matrix produced by the Global
Assembler (from the freshly reinitialized zero matrix) is symmetric before
boundary elimination: A[i,j] = A[j,i] for all global DoF pairs. -/
theorem global_matrix_symmetric {n dim nd nq : Nat}
    (cs : List (Cell n dim nd nq)) (g h : Fin n) :
    (assembleCells cs (zeroMat n) (zeroVec n)).1 g h
      = (assembleCells cs (zeroMat n) (zeroVec n)).1 h g := by
  rw [assembleCells_fst_apply, assembleCells_fst_apply]
  have percell : ∀ c : Cell n dim nd nq,
      (∑ i, ∑ j, if g = c.dofs i ∧ h = c.dofs j then cellMatrix c i j else 0)
        = ∑ i, ∑ j, if h = c.dofs i ∧ g = c.dofs j then cellMatrix c i j else 0 := by
    intro c
    conv_rhs => rw [Finset.sum_comm]
    refine Finset.sum_congr rfl fun i _ => Finset.sum_congr rfl fun j _ => ?_
    exact if_congr and_comm (cellMatrix_symm c i j) rfl
  have hmap : (cs.map fun c =>
      ∑ i, ∑ j, if g = c.dofs i ∧ h = c.dofs j then cellMatrix c i j else 0)
        = cs.map fun c =>
      ∑ i, ∑ j, if h = c.dofs i ∧ g = c.dofs j then cellMatrix c i j else 0 :=
    List.map_congr_left fun c _ => percell c
  rw [hmap]
  rfl

/-- C4: boundary elimination is idempotent — applying the Boundary Applier
twice with the same boundary value map yields the same system (matrix,
solution, rhs) as applying it once. -/
theorem boundary_values_idempotent {n : Nat} (B : Finset (Fin n))
    (g : Fin n → ℚ) (s : GlobalSystem n) :
    applyBoundaryValues B g (applyBoundaryValues B g s)
      = applyBoundaryValues B g s := by
  have hA : applyBoundaryMat B (applyBoundaryMat B s.A) = applyBoundaryMat B s.A := by
    funext i j
    unfold applyBoundaryMat
    by_cases hi : i ∈ B <;> by_cases hj : j ∈ B <;> simp [hi, hj]
  have hx : applyBoundarySol B g (applyBoundarySol B g s.solution)
      = applyBoundarySol B g s.solution := by
    funext i
    unfold applyBoundarySol
    by_cases hi : i ∈ B <;> simp [hi]
  have hb : applyBoundaryRhs B g (applyBoundaryMat B s.A)
      (applyBoundaryRhs B g s.A s.rhs) = applyBoundaryRhs B g s.A s.rhs := by
    funext i
    by_cases hi : i ∈ B
    · unfold applyBoundaryRhs
      simp [hi]
    · have hz : (∑ j ∈ B, applyBoundaryMat B s.A i j * g j) = 0 :=
        Finset.sum_eq_zero fun j hj => by simp [applyBoundaryMat, hi, hj]
      unfold applyBoundaryRhs
      simp [hi, hz]
  unfold applyBoundaryValues
  dsimp only
  rw [GlobalSystem.mk.injEq]
  exact ⟨hA, hx, hb⟩

/-- C9: after the setup step, the per-level matrix container is indexed by
every level in [0, L-1], and the matrix at level l is square with dimension
equal to the DoF count of level l's own numbering. -/
theorem level_matrices_indexed_and_square (nlevels : Nat) (ndofsL : Nat → Nat)
    (l : Nat) (h : l < nlevels) :
    (setupLevelShapes nlevels ndofsL).length = nlevels ∧
    (setupLevelShapes nlevels ndofsL).getD l { rows := 0, cols := 0 }
      = { rows := ndofsL l, cols := ndofsL l } := by
  constructor
  · simp [setupLevelShapes]
  · have hlen : l < (setupLevelShapes nlevels ndofsL).length := by
      simpa [setupLevelShapes] using h
    rw [List.getD_eq_getElem _ _ hlen]
    simp [setupLevelShapes]

/-- C9 witness: three levels with per-level DoF counts l + 4; level 1's
matrix is 5 x 5. -/
theorem level_matrices_indexed_and_square_w :
    (setupLevelShapes 3 (fun l => l + 4)).length = 3 ∧
    (setupLevelShapes 3 (fun l => l + 4)).getD 1 { rows := 0, cols := 0 }
      = { rows := 5, cols := 5 } :=
  level_matrices_indexed_and_square 3 (fun l => l + 4) 1 (by decide)

/-- C8: the program entry runs exactly 6 refinement cycles, returns exit
code 0 on normal completion, and the active-cell count at cycle c is
4^c times the single base hypercube cell (2D quadrilateral splitting). -/
theorem main_six_cycles_active_cells :
    runActiveCells.length = 6 ∧ runCycleCount = 6 ∧ mainExitCode = 0 ∧
    ∀ c : Nat, activeCellsAtCycle c = 4 ^ c * hyperCubeActiveCells := by
  refine ⟨by simp [runActiveCells, runCycleCount], rfl, rfl, ?_⟩
  intro c
  induction c with
  | zero => simp [activeCellsAtCycle]
  | succ c ih =>
    show refineGlobalActive (activeCellsAtCycle c) = _
    rw [refineGlobalActive, ih, pow_succ]
    ring

/-- C1 counterexample: the cycle body of `run` (lines 504-507) never
invokes the Level Assembler `assemble_multigrid`, contradicting the claim
that every cycle's Assemble step invokes both assemblers. -/
theorem run_never_invokes_level_assembler :
    CycleCall.assembleMultigridCall ∉ runCycleCalls := by
  decide

/-- C1 (amended): the Assemble step of every cycle invokes only the Global
Assembler — the cycle body is exactly setup, global assembly, solve,
output — and consequently the per-level matrices are still identically
zero (as `setup_system` left them) after every cycle. -/
theorem run_assembles_only_global {n dim nd nq : Nat}
    (cfg : CycleConfig n dim nd nq) (st : FullState n) :
    runCycleCalls = [CycleCall.setupCall, CycleCall.assembleSystemCall,
      CycleCall.solveCall, CycleCall.outputCall] ∧
    (runCycleState cfg st).mg = fun _ _ _ => (0 : ℚ) :=
  ⟨rfl, rfl⟩

/-- A one-DoF, one-cell configuration with unit gradient, shape value and
quadrature weight, and no boundary DoFs: its single assembled matrix entry
and rhs entry are both 1. -/
def repeatCell : Cell 1 1 1 1 :=
  { dofs := fun _ => 0, grad := fun _ _ _ => 1, val := fun _ _ => 1, jxw := fun _ => 1 }

/-- The freshly set-up one-DoF global system. -/
def repeatStart : GlobalSystem 1 :=
  { A := zeroMat 1, solution := zeroVec 1, rhs := zeroVec 1 }

/-- C6 counterexample: running `assemble_system` a second time without an
intervening `setup_system` does NOT reproduce the first run's system — the
matrix entry doubles from 1 to 2, because `system_matrix.add` accumulates
into whatever the matrix already holds. -/
theorem assemble_twice_differs :
    assemble_system [repeatCell] ∅ (assemble_system [repeatCell] ∅ repeatStart)
      ≠ assemble_system [repeatCell] ∅ repeatStart := by
  intro hEq
  have key : ∀ s : GlobalSystem 1, (assemble_system [repeatCell] ∅ s).A 0 0
      = s.A 0 0 + 1 := by
    intro s
    show applyBoundaryMat ∅ (assembleCells [repeatCell] s.A s.rhs).1 0 0 = s.A 0 0 + 1
    simp [applyBoundaryMat, assembleCells_fst_apply, repeatCell, cellMatrix]
  have h2 := congrArg (fun s : GlobalSystem 1 => s.A 0 0) hEq
  simp only [key] at h2
  have hz : repeatStart.A 0 0 = 0 := rfl
  rw [hz] at h2
  norm_num at h2

/-- C6 (amended): the Global Assembler accumulates — a second run on top of
a first run from the zero state doubles every pre-elimination matrix and
rhs entry — and it carries no hidden state beyond the explicit matrix and
vector: after the setup step's reinitialization, the assembled system is
the same function of the cell data regardless of any earlier state. -/
theorem assemble_accumulates_and_is_reproducible {n dim nd nq m : Nat}
    (cs : List (Cell n dim nd nq)) (B : Finset (Fin n))
    (s t : GlobalSystem m) (g h : Fin n) :
    (assembleCells cs (assembleCells cs (zeroMat n) (zeroVec n)).1
        (assembleCells cs (zeroMat n) (zeroVec n)).2).1 g h
      = 2 * (assembleCells cs (zeroMat n) (zeroVec n)).1 g h ∧
    (assembleCells cs (assembleCells cs (zeroMat n) (zeroVec n)).1
        (assembleCells cs (zeroMat n) (zeroVec n)).2).2 g
      = 2 * (assembleCells cs (zeroMat n) (zeroVec n)).2 g ∧
    assemble_system cs B (setupGlobal n s) = assemble_system cs B (setupGlobal n t) := by
  refine ⟨?_, ?_, rfl⟩
  · simp only [assembleCells_fst_apply]
    show zeroMat n g h + _ + _ = 2 * (zeroMat n g h + _)
    simp [zeroMat]
    ring
  · simp only [assembleCells_snd_apply]
    show zeroVec n g + _ + _ = 2 * (zeroVec n g + _)
    simp [zeroVec]
    ring

/-- A one-DoF state whose global system is not yet boundary-eliminated:
the matrix diagonal holds 2, the solution 7, the rhs 9. -/
def touchedState : FullState 1 :=
  { sys := { A := fun _ _ => 2, solution := fun _ => 7, rhs := fun _ => 9 },
    mg := fun _ _ _ => 0 }

/-- C7 counterexample: `assemble_multigrid` is NOT free of global side
effects — lines 354-363 apply the zero boundary values to the global
system, so on a not-yet-eliminated state (here with the single DoF on the
boundary) the global matrix, solution and rhs all change. -/
theorem level_assembler_changes_global :
    (assemble_multigrid ([] : List (LevelCell 1 1 1)) ({0} : Finset (Fin 1))
      touchedState).sys ≠ touchedState.sys := by
  intro hEq
  have h2 := congrArg (fun s : GlobalSystem 1 => s.A 0 0) hEq
  have e1 : (assemble_multigrid ([] : List (LevelCell 1 1 1)) ({0} : Finset (Fin 1))
      touchedState).sys.A 0 0 = 1 := by
    show applyBoundaryMat ({0} : Finset (Fin 1)) touchedState.sys.A 0 0 = 1
    simp [applyBoundaryMat]
  have e2 : touchedState.sys.A 0 0 = 2 := rfl
  simp only [] at h2
  rw [e1, e2] at h2
  norm_num at h2

/-- C7 (amended): the Level Assembler scatter-adds every hierarchy cell's
stiffness block into the matrix of that cell's own level, and additionally
re-applies the zero Dirichlet boundary values to the global system matrix,
solution and rhs (lines 354-363); the global triple is therefore changed
exactly to its boundary-eliminated form, not left untouched. -/
theorem level_assembler_effects {n dim nd nq : Nat}
    (lcs : List (LevelCell dim nd nq)) (B : Finset (Fin n))
    (st : FullState n) (L i j : Nat) :
    (assemble_multigrid lcs B st).mg L i j
      = st.mg L i j + (lcs.map fun c =>
          ∑ a, ∑ b2, if L = c.level ∧ i = c.dofs a ∧ j = c.dofs b2
            then lcellMatrix c a b2 else 0).sum ∧
    (assemble_multigrid lcs B st).sys
      = applyBoundaryValues B (fun _ => 0) st.sys :=
  ⟨assembleLevels_apply lcs B st L i j, rfl⟩

/-! ## Solver control lemmas -/

/-- Matrix application is linear in the vector argument. -/
theorem matVec_add_smul {n : Nat} (A : Mat n) (x p : Vec n) (a : ℚ) (i : Fin n) :
    matVec A (fun k => x k + a * p k) i = matVec A x i + a * matVec A p i := by
  unfold matVec
  rw [Finset.mul_sum, ← Finset.sum_add_distrib]
  exact Finset.sum_congr rfl fun j _ => by ring

/-- One CG step keeps the stored residual equal to the true residual of the
stored iterate. -/
theorem cgStep_resid {n : Nat} (A : Mat n) (M : Vec n → Vec n) (b : Vec n)
    (s : CGState n) (hs : s.r = resid A b s.x) :
    (cgStep A M s).r = resid A b (cgStep A M s).x := by
  funext i
  show cgNewResid A M s i = resid A b (fun k => s.x k + cgAlpha A M s * s.p k) i
  unfold cgNewResid resid
  rw [matVec_add_smul, hs]
  unfold resid
  ring

/-- The CG loop succeeds only at a state reached from the start state by
iterating `cgStep`, whose residual test passed, after at most `fuel` more
iterations; any `cgStep`-invariant property of the start state holds at the
returned state. -/
theorem cgLoop_ok_inv {n : Nat} (A : Mat n) (M : Vec n → Vec n) (tolSq : ℚ)
    (P : CGState n → Prop) (hP : ∀ s, P s → P (cgStep A M s)) :
    ∀ (fuel : Nat) (s : CGState n) (x : Vec n) (it : Nat), P s →
      cgLoop A M tolSq fuel s = Except.ok (x, it) →
      ∃ s2 : CGState n, P s2 ∧ s2.x = x ∧ s2.iter = it ∧
        normSq s2.r < tolSq ∧ it ≤ s.iter + fuel := by
  intro fuel
  induction fuel with
  | zero =>
    intro s x it hPs hEq
    rw [cgLoop] at hEq
    by_cases ht : normSq s.r < tolSq
    · rw [if_pos ht] at hEq
      simp only [Except.ok.injEq, Prod.mk.injEq] at hEq
      exact ⟨s, hPs, hEq.1, hEq.2, ht, by omega⟩
    · rw [if_neg ht] at hEq
      exact absurd hEq (by simp)
  | succ f ih =>
    intro s x it hPs hEq
    rw [cgLoop] at hEq
    by_cases ht : normSq s.r < tolSq
    · rw [if_pos ht] at hEq
      simp only [Except.ok.injEq, Prod.mk.injEq] at hEq
      exact ⟨s, hPs, hEq.1, hEq.2, ht, by omega⟩
    · rw [if_neg ht] at hEq
      obtain ⟨s2, hs2, hx, hit, hres, hle⟩ := ih (cgStep A M s) x it (hP s hPs) hEq
      refine ⟨s2, hs2, hx, hit, hres, ?_⟩
      have : (cgStep A M s).iter = s.iter + 1 := rfl
      omega

/-- The CG loop surfaces the divergence error exactly when every iterate
within the remaining budget fails the residual tolerance test. -/
theorem cgLoop_error_iff {n : Nat} (A : Mat n) (M : Vec n → Vec n) (tolSq : ℚ) :
    ∀ (fuel : Nat) (s : CGState n),
      cgLoop A M tolSq fuel s = Except.error SolverDivergence.noConvergence ↔
      ∀ k : Nat, k ≤ fuel → tolSq ≤ normSq (((cgStep A M)^[k] s).r) := by
  intro fuel
  induction fuel with
  | zero =>
    intro s
    rw [cgLoop]
    by_cases ht : normSq s.r < tolSq
    · rw [if_pos ht]
      constructor
      · intro h; exact absurd h (by simp)
      · intro h
        exact absurd (h 0 (Nat.le_refl 0)) (by simpa using not_le.mpr ht)
    · rw [if_neg ht]
      constructor
      · intro _ k hk
        have hk0 : k = 0 := Nat.le_zero.mp hk
        subst hk0
        simpa using not_lt.mp ht
      · intro _; rfl
  | succ f ih =>
    intro s
    rw [cgLoop]
    by_cases ht : normSq s.r < tolSq
    · rw [if_pos ht]
      constructor
      · intro h; exact absurd h (by simp)
      · intro h
        exact absurd (h 0 (Nat.zero_le _)) (by simpa using not_le.mpr ht)
    · rw [if_neg ht]
      rw [ih (cgStep A M s)]
      constructor
      · intro h k hk
        match k with
        | 0 => simpa using not_lt.mp ht
        | k + 1 =>
          have hk2 := h k (Nat.le_of_succ_le_succ hk)
          simpa [Function.iterate_succ_apply] using hk2
      · intro h k hk
        have hk2 := h (k + 1) (Nat.succ_le_succ hk)
        simpa [Function.iterate_succ_apply] using hk2

/-- C3: the Linear Solver is preconditioned CG with the SSOR preconditioner
built from the global matrix itself at relaxation factor 1.2, stops at a
residual below the absolute tolerance 1e-12 within at most 1000 iterations,
and exceeding the iteration cap without reaching tolerance is surfaced to
the caller as a solver-divergence error, never as a silently returned
result. -/
theorem solver_control_spec {n : Nat} (A : Mat n) (b x0 : Vec n) :
    cgMaxIter = 1000 ∧ cgTol = 1 / 10 ^ 12 ∧ ssorRelax = 12 / 10 ∧
    (∀ x it, lpSolve A b x0 = Except.ok (x, it) →
      normSq (resid A b x) < cgTol * cgTol ∧ it ≤ cgMaxIter) ∧
    (lpSolve A b x0 = Except.error SolverDivergence.noConvergence ↔
      ∀ k : Nat, k ≤ cgMaxIter → cgTol * cgTol ≤
        normSq (((cgStep A (precondSSOR A ssorRelax))^[k]
          (cgInit A (precondSSOR A ssorRelax) b x0)).r)) := by
  refine ⟨rfl, rfl, rfl, ?_, ?_⟩
  · intro x it hEq
    obtain ⟨s2, hs2, hx, hit, hres, hle⟩ :=
      cgLoop_ok_inv A (precondSSOR A ssorRelax) (cgTol * cgTol)
        (fun s => s.r = resid A b s.x)
        (fun s hs => cgStep_resid A (precondSSOR A ssorRelax) b s hs)
        cgMaxIter (cgInit A (precondSSOR A ssorRelax) b x0) x it rfl hEq
    constructor
    · rw [← hx, ← hs2]
      exact hres
    · simpa [cgInit] using hle
  · exact cgLoop_error_iff A (precondSSOR A ssorRelax) (cgTol * cgTol)
      cgMaxIter (cgInit A (precondSSOR A ssorRelax) b x0)

end Step16
